import Mathlib

/-!
Verification development for the harbor-cleaner repository.

The definitions below are shallow embeddings of the Go source:
- `internal/cleaner/cleaner.go` (`RunHarborStrategy`, `RunKubernetesStrategy`),
- `cmd/harbor-cleaner/main.go` (the standalone "v5" variant of the time-based policy),
- `internal/utils/file_utils.go` (manifest CSV round trip, modelled at row level —
  CSV byte encoding itself is an excluded I/O boundary),
- `internal/k8s/k8s_collector.go` (`getSafeImagesForWorkload`),
- `internal/config/config.go` (`MatchWildcard`, `ShouldProcessWorkload`).

Go machine integers appear only as list positions and retention bounds; they are
modelled as `Nat` (a negative Go bound behaves identically to `0` in every
comparison the code performs, so nothing is lost).  Timestamps are modelled as
`Int`.  The registry and cluster clients are external collaborators: artifact
lists arrive as inputs, delete calls are recorded in an output list, and the
outcome of a live delete is an oracle `String → Bool` indexed by digest.
-/

/-- A tag attached to an artifact (harbor_client.go, struct `Tag`). -/
structure Tag where
  name : String
deriving DecidableEq

/-- An artifact in a repository (harbor_client.go, struct `Artifact`).
`pushTime` is an abstract timestamp. -/
structure Artifact where
  digest : String
  pushTime : Int
  tags : List Tag
deriving DecidableEq

/-- `strings.Contains hay needle` on lists of characters: some suffix of `hay`
has `needle` as a prefix. -/
def containsSub (needle hay : List Char) : Bool :=
  (List.range (hay.length + 1)).any (fun k => needle.isPrefixOf (hay.drop k))

/-- Snapshot test of cleaner.go line 63:
`strings.Contains(strings.ToUpper(tagName), "SNAPSHOT")` (case-insensitive;
`Char.toUpper` is ASCII-only, which covers the "SNAPSHOT" letters). -/
def isSnapshotTag (tagName : String) : Bool :=
  containsSub "SNAPSHOT".data (tagName.data.map Char.toUpper)

/-- Snapshot test of the v5 main.go line `strings.Contains(tagName, "SNAPSHOT")`
(case-sensitive). -/
def v5IsSnapshotTag (tagName : String) : Bool :=
  containsSub "SNAPSHOT".data tagName.data

/-- First tag name of an artifact (`art.Tags[0].Name`); `""` when untagged. -/
def headTagName (a : Artifact) : String :=
  match a.tags with
  | [] => ""
  | t :: _ => t.name

/-- Whether an artifact's first tag is snapshot-tagged in the cleaner.go sense. -/
def artIsSnapshot (a : Artifact) : Bool :=
  isSnapshotTag (headTagName a)

/-- One keep decision of `RunHarborStrategy` (cleaner.go lines 65-75): the
`keep` flag and updated `keptSnapshots` counter for the tagged artifact at
position `i`. -/
def harborKeepStep (keepLastN maxSnapshots i keptSnapshots : Nat) (tagName : String) :
    Bool × Nat :=
  if i < keepLastN then
    if isSnapshotTag tagName then
      if keptSnapshots < maxSnapshots then (true, keptSnapshots + 1)
      else (false, keptSnapshots)
    else (true, keptSnapshots)
  else (false, keptSnapshots)

/-- The classification core of `RunHarborStrategy` (cleaner.go lines 56-75):
walk the (already push-time-sorted) artifact list with running position `i`
and snapshot-kept counter `keptSnapshots`; untagged artifacts are skipped (but
still advance `i`, since Go's `for i, art := range artifacts` indexes the full
slice); each tagged artifact is paired with its keep decision. -/
def harborKeepDecisions (keepLastN maxSnapshots : Nat) :
    List Artifact → Nat → Nat → List (Artifact × Bool)
  | [], _, _ => []
  | art :: rest, i, keptSnapshots =>
    match art.tags with
    | [] => harborKeepDecisions keepLastN maxSnapshots rest (i + 1) keptSnapshots
    | tag :: _ =>
      (art, (harborKeepStep keepLastN maxSnapshots i keptSnapshots tag.name).1) ::
        harborKeepDecisions keepLastN maxSnapshots rest (i + 1)
          (harborKeepStep keepLastN maxSnapshots i keptSnapshots tag.name).2

/-- The snapshot-kept counter after walking a list, mirroring the updates of
`keptSnapshots` in `harborKeepDecisions`. -/
def ksAfter (keepLastN maxSnapshots : Nat) :
    List Artifact → Nat → Nat → Nat
  | [], _, ks => ks
  | art :: rest, i, ks =>
    match art.tags with
    | [] => ksAfter keepLastN maxSnapshots rest (i + 1) ks
    | tag :: _ =>
      ksAfter keepLastN maxSnapshots rest (i + 1) (harborKeepStep keepLastN maxSnapshots i ks tag.name).2

/-- Result of one repository's cleanup pass: the deleted-artifact counter, the
audit rows appended, and the digests for which a delete call was issued. -/
structure CleanResult where
  deleted : Nat
  audit : List (List String)
  deleteCalls : List String
deriving DecidableEq

/-- The KEPT note of cleaner.go line 80. -/
def keptNote (keepLastN ks2 maxSnapshots : Nat) : String :=
  "Kept as part of the newest " ++ toString keepLastN ++
    " artifacts (snapshot count: " ++ toString ks2 ++ "/" ++ toString maxSnapshots ++ ")"

/-- Full per-repository walk of `RunHarborStrategy` (cleaner.go lines 56-104):
classification, audit rows, deleted counter and delete calls.  `deleteOk`
models the success of `client.DeleteArtifact` per digest. -/
def harborRepoLoop (dryRun : Bool) (keepLastN maxSnapshots : Nat)
    (baseURL repoName : String) (deleteOk : String → Bool) :
    List Artifact → Nat → Nat → CleanResult
  | [], _, _ => ⟨0, [], []⟩
  | art :: rest, i, keptSnapshots =>
    match art.tags with
    | [] => harborRepoLoop dryRun keepLastN maxSnapshots baseURL repoName deleteOk rest (i + 1) keptSnapshots
    | tag :: _ =>
      let fullImageName := baseURL ++ "/" ++ repoName ++ ":" ++ tag.name
      let keepPair := harborKeepStep keepLastN maxSnapshots i keptSnapshots tag.name
      let restRes := harborRepoLoop dryRun keepLastN maxSnapshots baseURL repoName deleteOk rest (i + 1) keepPair.2
      if keepPair.1 then
        ⟨restRes.deleted,
         [fullImageName, "KEPT", keptNote keepLastN keepPair.2 maxSnapshots] :: restRes.audit,
         restRes.deleteCalls⟩
      else if dryRun then
        ⟨restRes.deleted + 1,
         [fullImageName, "TO BE DELETED", "Expired artifact"] :: restRes.audit,
         restRes.deleteCalls⟩
      else
        ⟨(if deleteOk art.digest then restRes.deleted + 1 else restRes.deleted),
         [fullImageName, (if deleteOk art.digest then "DELETED" else "DELETE_FAILED"),
          "Expired artifact"] :: restRes.audit,
         art.digest :: restRes.deleteCalls⟩

/-- The classification core of the standalone v5 `main.go` (lines 414-440 of
`cmd/harbor-cleaner/main.go`): the walk is over the tag-filtered sorted list,
the window is tracked by `keptCount` (the number of artifacts actually kept so
far) rather than by list position, and snapshot detection is case-sensitive. -/
def v5KeepDecisions (keepLastN maxSnapshots : Nat) :
    List Artifact → Nat → Nat → List (Artifact × Bool)
  | [], _, _ => []
  | art :: rest, keptCount, snapshotKeptCount =>
    if keptCount < keepLastN then
      if v5IsSnapshotTag (headTagName art) then
        if snapshotKeptCount < maxSnapshots then
          (art, true) :: v5KeepDecisions keepLastN maxSnapshots rest (keptCount + 1) (snapshotKeptCount + 1)
        else
          (art, false) :: v5KeepDecisions keepLastN maxSnapshots rest keptCount snapshotKeptCount
      else
        (art, true) :: v5KeepDecisions keepLastN maxSnapshots rest (keptCount + 1) snapshotKeptCount
    else
      (art, false) :: v5KeepDecisions keepLastN maxSnapshots rest keptCount snapshotKeptCount

/-- Per-repository behaviour of the v5 `main.go` (lines 398-440): untagged
artifacts are filtered out first; a repository whose tagged-artifact count is
at most `keepLastN` is skipped entirely ("not more than the keep limit"),
otherwise the sorted tagged list is classified by `v5KeepDecisions`.
`sortedTagged` is the tag-filtered, push-time-sorted list. -/
def v5Repo (keepLastN maxSnapshots : Nat) (sortedTagged : List Artifact) :
    List (Artifact × Bool) :=
  if sortedTagged.length ≤ keepLastN then []
  else v5KeepDecisions keepLastN maxSnapshots sortedTagged 0 0

/-- Usage context of an in-use image (file_utils.go, struct `ImageContext`). -/
structure ImageContext where
  env : String
  ns : String
deriving DecidableEq

/-- `strings.TrimPrefix s pre` on character lists. -/
def trimPrefixCh (s pre : List Char) : List Char :=
  if pre.isPrefixOf s then s.drop pre.length else s

/-- The characters before the last `':'` of a string, or `none` when the string
has no `':'` (`strings.LastIndex(repoAndTag, ":")` plus the slice
`repoAndTag[:lastColon]`, cleaner.go lines 126-128). -/
def beforeLastColon (s : List Char) : Option (List Char) :=
  match s.reverse.dropWhile (fun c => !(c = ':')) with
  | [] => none
  | _ :: rest => some rest.reverse

/-- Domain derivation of cleaner.go lines 120-121: strip an `https://` and then
an `http://` scheme prefix from the client base URL. -/
def harborDomainOf (baseURL : String) : String :=
  String.mk (trimPrefixCh (trimPrefixCh baseURL.data "https://".data) ("http:" ++ "//").data)

/-- In-use repository-name derivation of `RunKubernetesStrategy` (cleaner.go
lines 119-131): for every safe image that starts with `harborDomain ++ "/"`,
strip that prefix and truncate at the last `':'`; images without the domain
prefix or without a colon contribute nothing. -/
def inUseRepoNames (safeImageSet : List String) (harborDomain : String) : List String :=
  safeImageSet.filterMap (fun safeImage =>
    if (harborDomain.data ++ ['/']).isPrefixOf safeImage.data then
      match beforeLastColon (safeImage.data.drop (harborDomain.data.length + 1)) with
      | some repoChars => some (String.mk repoChars)
      | none => none
    else none)

/-- Per-artifact walk of `RunKubernetesStrategy` (cleaner.go lines 165-206):
untagged artifacts are skipped; a tagged artifact whose first-tag reference is
in the safe-image set is KEPT with its contexts joined into the audit row;
otherwise it is deleted (or marked TO BE DELETED under dry-run). -/
def k8sRepoLoop (dryRun : Bool) (harborDomain repoName : String)
    (safeImageSet : List String) (contextMap : String → List ImageContext)
    (deleteOk : String → Bool) : List Artifact → CleanResult
  | [] => ⟨0, [], []⟩
  | art :: rest =>
    match art.tags with
    | [] => k8sRepoLoop dryRun harborDomain repoName safeImageSet contextMap deleteOk rest
    | tag :: _ =>
      let fullImageName := harborDomain ++ "/" ++ repoName ++ ":" ++ tag.name
      let restRes := k8sRepoLoop dryRun harborDomain repoName safeImageSet contextMap deleteOk rest
      if fullImageName ∈ safeImageSet then
        let contexts := contextMap fullImageName
        ⟨restRes.deleted,
         [fullImageName, "KEPT",
          String.intercalate "," (contexts.map (fun c => c.env)),
          String.intercalate "," (contexts.map (fun c => c.ns)),
          "In use by Kubernetes"] :: restRes.audit,
         restRes.deleteCalls⟩
      else if dryRun then
        ⟨restRes.deleted + 1,
         [fullImageName, "TO BE DELETED", "-", "-", "Not found in K8s manifest file"] :: restRes.audit,
         restRes.deleteCalls⟩
      else
        ⟨(if deleteOk art.digest then restRes.deleted + 1 else restRes.deleted),
         [fullImageName, (if deleteOk art.digest then "DELETED" else "DELETE_FAILED"),
          "-", "-", "Not found in K8s manifest file"] :: restRes.audit,
         art.digest :: restRes.deleteCalls⟩

/-- A repository's outcome under `RunKubernetesStrategy`, together with the
record of whether its artifacts were listed at all. -/
structure RepoOutcome where
  deleted : Nat
  audit : List (List String)
  deleteCalls : List String
  listedRepos : List String
deriving DecidableEq

/-- A single project/repository step of `RunKubernetesStrategy` (cleaner.go
lines 153-207): a repository not in the in-use set is skipped before its
artifacts are listed; otherwise its artifact list is fetched (recorded in
`listedRepos`) and walked by `k8sRepoLoop`. -/
def runK8sRepo (dryRun : Bool) (harborDomain : String) (safeImageSet : List String)
    (contextMap : String → List ImageContext) (deleteOk : String → Bool)
    (listArtifacts : String → List Artifact) (repoName : String) : RepoOutcome :=
  if repoName ∈ inUseRepoNames safeImageSet harborDomain then
    let res := k8sRepoLoop dryRun harborDomain repoName safeImageSet contextMap deleteOk
      (listArtifacts repoName)
    ⟨res.deleted, res.audit, res.deleteCalls, [repoName]⟩
  else ⟨0, [], [], []⟩

/-- A safe-image record produced by the cluster scan (k8s_collector.go,
struct `SafeImageInfo`). -/
structure SafeImageInfo where
  image : String
  env : String
  ns : String
deriving DecidableEq

/-- `strings.TrimSpace` modelled directly on the character list: drop leading
and trailing whitespace. -/
def trimSpace (s : String) : String :=
  String.mk (((s.data.dropWhile Char.isWhitespace).reverse.dropWhile Char.isWhitespace).reverse)

/-- `WriteManifestToCSV` at row level (file_utils.go lines 19-41): a header row
followed by one three-column row per record, in record order. -/
def toManifestRows (records : List SafeImageInfo) : List (List String) :=
  ["image", "environment", "namespace"] :: records.map (fun r => [r.image, r.env, r.ns])

/-- The data rows accepted by `ReadManifestFromCSV` (file_utils.go lines 58-75):
skip the header row; keep rows with at least three fields; trim each field;
drop rows whose trimmed image is empty. -/
def manifestDataRows (rows : List (List String)) : List (String × String × String) :=
  (rows.drop 1).filterMap (fun record =>
    match record with
    | image :: env :: ns :: _ =>
      if trimSpace image = "" then none
      else some (trimSpace image, trimSpace env, trimSpace ns)
    | _ => none)

/-- The safe-image set returned by `ReadManifestFromCSV` (as a list of keys). -/
def readSafeImageSet (rows : List (List String)) : List String :=
  (manifestDataRows rows).map (fun t => t.1)

/-- The context map returned by `ReadManifestFromCSV`: all contexts of the rows
whose image equals `image`, in row order (Go appends per row). -/
def readContextMap (rows : List (List String)) (image : String) : List ImageContext :=
  ((manifestDataRows rows).filter (fun t => t.1 == image)).map (fun t => ⟨t.2.1, t.2.2⟩)

/-- One (image, creation time) revision entry of `getSafeImagesForWorkload`
(k8s_collector.go, local struct `revisionInfo`). -/
structure RevisionInfo where
  image : String
  time : Int
deriving DecidableEq

/-- The revision list built by k8s_collector.go lines 42-50: every current-spec
container image paired with the workload's own creation time, followed by the
replica-set revisions (each already paired with its creation time). -/
def buildRevisions (currentImages : List String) (creationTime : Int)
    (rsRevisions : List RevisionInfo) : List RevisionInfo :=
  currentImages.map (fun img => ⟨img, creationTime⟩) ++ rsRevisions

/-- The emission walk of `getSafeImagesForWorkload` (k8s_collector.go lines
56-69): walk the sorted revisions, skip an image already seen, and append a
record while fewer than `keepN` have been emitted. -/
def safeImagesLoop (envName nsName : String) (keepN : Nat) :
    List RevisionInfo → List String → List SafeImageInfo → List SafeImageInfo
  | [], _, safeImages => safeImages
  | revision :: rest, seenImages, safeImages =>
    if revision.image ∈ seenImages then
      safeImagesLoop envName nsName keepN rest seenImages safeImages
    else if safeImages.length < keepN then
      safeImagesLoop envName nsName keepN rest (revision.image :: seenImages)
        (safeImages ++ [⟨revision.image, envName, nsName⟩])
    else
      safeImagesLoop envName nsName keepN rest seenImages safeImages

/-- `getSafeImagesForWorkload` (k8s_collector.go lines 26-71) applied to an
already push-time-sorted revision list (the Go code sorts with the unstable
`sort.Slice`; theorems therefore quantify over any descending-sorted
permutation of the built revision list). -/
def getSafeImagesForWorkload (envName nsName : String) (keepN : Nat)
    (sortedRevisions : List RevisionInfo) : List SafeImageInfo :=
  safeImagesLoop envName nsName keepN sortedRevisions [] []

/-- First occurrence of each image not yet in `seen`, in list order — the
characterisation of which revisions `safeImagesLoop` inspects. -/
def firstOcc : List RevisionInfo → List String → List RevisionInfo
  | [], _ => []
  | r :: rest, seen =>
    if r.image ∈ seen then firstOcc rest seen
    else r :: firstOcc rest (r.image :: seen)

/-- `matchWildcardHelper` of config.go lines 70-108, translated clause by
clause: an exhausted pattern matches only the exhausted string; an exhausted
string matches only a remaining pattern of `'*'`s; on `'*'` the consecutive
stars are skipped and every suffix of the remaining string is tried; otherwise
`'?'` or an equal character advances both. -/
def matchWildcardHelper : (p : List Char) → (s : List Char) → Bool
  | [], s => s.isEmpty
  | pc :: pr, [] => (pc :: pr).all (fun c => c = '*')
  | pc :: pr, sc :: sr =>
    if pc = '*' then
      let p2 := pr.dropWhile (fun c => c = '*')
      if p2.isEmpty then true
      else (List.range ((sc :: sr).length + 1)).any
        (fun k => matchWildcardHelper p2 ((sc :: sr).drop k))
    else if pc = '?' ∨ pc = sc then matchWildcardHelper pr sr
    else false
termination_by p _ => p.length
decreasing_by
  · exact Nat.lt_succ_of_le ((List.dropWhile_suffix _).sublist.length_le)
  · exact Nat.lt_succ_self _

/-- `MatchWildcard` of config.go lines 66-68. -/
def MatchWildcard (pattern str : String) : Bool :=
  matchWildcardHelper pattern.data str.data

/-- `ShouldProcessWorkload` of config.go lines 112-134: a non-empty blacklist
match rejects; else a non-empty whitelist accepts exactly on a match; else
accept. -/
def ShouldProcessWorkload (workloadName : String) (whitelist blacklist : List String) : Bool :=
  if 0 < blacklist.length ∧ blacklist.any (fun pat => MatchWildcard pat workloadName) then
    false
  else if 0 < whitelist.length then
    whitelist.any (fun pat => MatchWildcard pat workloadName)
  else
    true

/-- Spec-level glob semantics, from the spec's words (§4.1): a pattern matches
the entire name; `'*'` matches zero or more characters, `'?'` matches exactly
one character, and any other character matches itself. -/
inductive Glob : List Char → List Char → Prop
  | nil : Glob [] []
  | one (c : Char) (p s : List Char) : Glob p s → Glob ('?' :: p) (c :: s)
  | lit (c : Char) (p s : List Char) : c ≠ '*' → c ≠ '?' → Glob p s → Glob (c :: p) (c :: s)
  | star (p s1 s2 : List Char) : Glob p s2 → Glob ('*' :: p) (s1 ++ s2)

/-- Relabel one audit row from dry-run form to live form: the status column
(second field) `TO BE DELETED` becomes `DELETED`; everything else unchanged. -/
def relabelRecord : List String → List String
  | img :: st :: rest => img :: (if st = "TO BE DELETED" then "DELETED" else st) :: rest
  | r => r

lemma glob_nil_left (s : List Char) : Glob [] s ↔ s = [] := by
  constructor
  · intro h
    cases h with
    | nil => rfl
  · rintro rfl; exact Glob.nil

lemma glob_cons_inv (pc : Char) (pr s : List Char) (h : Glob (pc :: pr) s) :
    (pc = '?' ∧ ∃ c s', s = c :: s' ∧ Glob pr s') ∨
    (pc ≠ '*' ∧ pc ≠ '?' ∧ ∃ s', s = pc :: s' ∧ Glob pr s') ∨
    (pc = '*' ∧ ∃ s1 s2, s = s1 ++ s2 ∧ Glob pr s2) := by
  cases h with
  | one c p s hg => exact Or.inl ⟨rfl, c, s, rfl, hg⟩
  | lit c p s h1 h2 hg => exact Or.inr (Or.inl ⟨h1, h2, s, rfl, hg⟩)
  | star p s1 s2 hg => exact Or.inr (Or.inr ⟨rfl, s1, s2, rfl, hg⟩)

lemma glob_nil_right (p : List Char) : Glob p [] ↔ ∀ c ∈ p, c = '*' := by
  constructor
  · intro h
    have aux : ∀ (q t : List Char), Glob q t → t = [] → ∀ c ∈ q, c = '*' := by
      intro q t hg
      induction hg with
      | nil => intro _ c hc; cases hc
      | one c p s _ _ => intro h; cases h
      | lit c p s _ _ _ _ => intro h; cases h
      | star p s1 s2 _ ih =>
        intro ht c hc
        rcases List.append_eq_nil.mp ht with ⟨h1, h2⟩
        rcases List.mem_cons.mp hc with rfl | hmem
        · rfl
        · exact ih h2 c hmem
    exact aux p [] h rfl
  · intro h
    induction p with
    | nil => exact Glob.nil
    | cons c p ih =>
      have hc : c = '*' := h c (List.mem_cons_self c p)
      subst hc
      have : Glob ('*' :: p) ([] ++ []) :=
        Glob.star p [] [] (ih (fun d hd => h d (List.mem_cons_of_mem _ hd)))
      simpa using this

lemma glob_stars_absorb (pr u t : List Char)
    (h : Glob (pr.dropWhile (fun c => c = '*')) t) : Glob ('*' :: pr) (u ++ t) := by
  induction pr generalizing u with
  | nil =>
    simp only [List.dropWhile_nil] at h
    rw [(glob_nil_left t).mp h]
    exact Glob.star [] u [] Glob.nil
  | cons c pr ih =>
    by_cases hc : c = '*'
    · subst hc
      rw [List.dropWhile_cons_of_pos (by simp)] at h
      have := ih (u := []) h
      simpa using Glob.star _ u t (by simpa using this)
    · rw [List.dropWhile_cons_of_neg (by simpa using hc)] at h
      exact Glob.star _ u t h

lemma glob_drop_stars (q t : List Char) (h : Glob q t) :
    ∃ u t', t = u ++ t' ∧ Glob (q.dropWhile (fun c => c = '*')) t' := by
  induction q generalizing t with
  | nil => exact ⟨[], t, rfl, by simpa using h⟩
  | cons c q ih =>
    by_cases hc : c = '*'
    · subst hc
      rcases glob_cons_inv _ _ _ h with ⟨hq, _⟩ | ⟨hne, _, _⟩ | ⟨_, s1, s2, hsplit, hg⟩
      · exact absurd hq (by decide)
      · exact absurd rfl hne
      · rcases ih s2 hg with ⟨u2, t', ht', hglob⟩
        refine ⟨s1 ++ u2, t', ?_, ?_⟩
        · rw [hsplit, ht', List.append_assoc]
        · rwa [List.dropWhile_cons_of_pos (by simp)]
    · refine ⟨[], t, rfl, ?_⟩
      rwa [List.dropWhile_cons_of_neg (by simpa using hc)]

lemma matchWildcardHelper_cons_cons (pc : Char) (pr : List Char) (sc : Char) (sr : List Char) :
    matchWildcardHelper (pc :: pr) (sc :: sr) =
      if pc = '*' then
        (if (pr.dropWhile (fun c => c = '*')).isEmpty then true
         else (List.range ((sc :: sr).length + 1)).any
           (fun k => matchWildcardHelper (pr.dropWhile (fun c => c = '*')) ((sc :: sr).drop k)))
      else if pc = '?' ∨ pc = sc then matchWildcardHelper pr sr
      else false := by
  rw [matchWildcardHelper]

theorem matchWildcardHelper_iff_aux :
    ∀ (n : Nat) (p s : List Char), p.length ≤ n →
      (matchWildcardHelper p s = true ↔ Glob p s) := by
  intro n
  induction n with
  | zero =>
    intro p s hp
    have hpnil : p = [] := List.length_eq_zero.mp (Nat.le_zero.mp hp)
    subst hpnil
    simp [matchWildcardHelper, glob_nil_left, List.isEmpty_iff]
  | succ n ih =>
    intro p s hp
    match p, s with
    | [], s =>
      simp [matchWildcardHelper, glob_nil_left, List.isEmpty_iff]
    | pc :: pr, [] =>
      rw [matchWildcardHelper, glob_nil_right]
      simp
    | pc :: pr, sc :: sr =>
      have hpr : pr.length ≤ n := Nat.succ_le_succ_iff.mp (by simpa using hp)
      rw [matchWildcardHelper_cons_cons]
      by_cases hstar : pc = '*'
      · subst hstar
        rw [if_pos rfl]
        have hp2len : (pr.dropWhile (fun c => c = '*')).length ≤ n :=
          le_trans ((List.dropWhile_suffix _).sublist.length_le) hpr
        by_cases h2 : (pr.dropWhile (fun c => c = '*')).isEmpty
        · rw [if_pos h2]
          constructor
          · intro _
            have hall : ∀ c ∈ pr, c = '*' := by
              have hnil : pr.dropWhile (fun c => c = '*') = [] := List.isEmpty_iff.mp h2
              intro c hc
              simpa using List.dropWhile_eq_nil_iff.mp hnil c hc
            have : Glob ('*' :: pr) ((sc :: sr) ++ []) :=
              Glob.star pr (sc :: sr) [] ((glob_nil_right pr).mpr hall)
            simpa using this
          · intro _; rfl
        · rw [if_neg h2, List.any_eq_true]
          constructor
          · rintro ⟨k, hkmem, hkmatch⟩
            have hglob : Glob (pr.dropWhile (fun c => c = '*')) ((sc :: sr).drop k) :=
              (ih _ _ hp2len).mp hkmatch
            have := glob_stars_absorb pr ((sc :: sr).take k) _ hglob
            rwa [List.take_append_drop] at this
          · intro h
            rcases glob_cons_inv _ _ _ h with ⟨hq, _⟩ | ⟨hne, _, _⟩ | ⟨_, s1, s2, hsplit, hg⟩
            · exact absurd hq (by decide)
            · exact absurd rfl hne
            · rcases glob_drop_stars pr s2 hg with ⟨u, t', ht', hglob⟩
              refine ⟨(s1 ++ u).length, ?_, ?_⟩
              · rw [List.mem_range]
                have heq : (sc :: sr) = (s1 ++ u) ++ t' := by
                  rw [List.append_assoc, ← ht', ← hsplit]
                have hle : (s1 ++ u).length ≤ (sc :: sr).length := by
                  rw [heq]
                  simp only [List.length_append]
                  omega
                exact Nat.lt_succ_of_le hle
              · have hdrop : (sc :: sr).drop (s1 ++ u).length = t' := by
                  have heq : (sc :: sr) = (s1 ++ u) ++ t' := by
                    rw [List.append_assoc, ← ht', ← hsplit]
                  rw [heq, List.drop_left]
                rw [hdrop]
                exact (ih _ t' hp2len).mpr hglob
      · rw [if_neg hstar]
        by_cases hq1 : pc = '?'
        · subst hq1
          rw [if_pos (Or.inl rfl), ih pr sr hpr]
          constructor
          · intro hg
            exact Glob.one sc pr sr hg
          · intro h
            rcases glob_cons_inv _ _ _ h with ⟨_, c, s', hs, hg⟩ | ⟨_, hne2, _⟩ | ⟨hq, _⟩
            · cases hs; exact hg
            · exact absurd rfl hne2
            · exact absurd hq (by decide)
        · by_cases hq2 : pc = sc
          · subst hq2
            rw [if_pos (Or.inr rfl), ih pr sr hpr]
            constructor
            · intro hg
              exact Glob.lit pc pr sr hstar hq1 hg
            · intro h
              rcases glob_cons_inv _ _ _ h with ⟨hq, _⟩ | ⟨_, _, s', hs, hg⟩ | ⟨hq, _⟩
              · exact absurd hq hq1
              · cases hs; exact hg
              · exact absurd hq hstar
          · rw [if_neg (by rintro (h | h); exact hq1 h; exact hq2 h)]
            constructor
            · intro h; cases h
            · intro h
              rcases glob_cons_inv _ _ _ h with ⟨hq, _⟩ | ⟨_, _, s', hs, hg⟩ | ⟨hq, _⟩
              · exact absurd hq hq1
              · exact absurd (List.head_eq_of_cons_eq hs.symm) hq2
              · exact absurd hq hstar

theorem matchWildcardHelper_iff (p s : List Char) :
    matchWildcardHelper p s = true ↔ Glob p s :=
  matchWildcardHelper_iff_aux p.length p s le_rfl

lemma shouldProcess_blacklist_reject (name : String) (wl bl : List String)
    (h : ∃ pat ∈ bl, MatchWildcard pat name = true) :
    ShouldProcessWorkload name wl bl = false := by
  rcases h with ⟨pat, hmem, hmatch⟩
  have hb : 0 < bl.length ∧ bl.any (fun p => MatchWildcard p name) = true :=
    ⟨List.length_pos.mpr (List.ne_nil_of_mem hmem),
     List.any_eq_true.mpr ⟨pat, hmem, hmatch⟩⟩
  unfold ShouldProcessWorkload
  rw [if_pos hb]

lemma shouldProcess_whitelist (name : String) (wl bl : List String)
    (h : ∀ pat ∈ bl, MatchWildcard pat name = false) (hwl : wl ≠ []) :
    (ShouldProcessWorkload name wl bl = true ↔ ∃ pat ∈ wl, MatchWildcard pat name = true) := by
  have hb : ¬ (0 < bl.length ∧ bl.any (fun p => MatchWildcard p name) = true) := by
    rintro ⟨-, hany⟩
    rcases List.any_eq_true.mp hany with ⟨pat, hm, hp⟩
    rw [h pat hm] at hp
    cases hp
  unfold ShouldProcessWorkload
  rw [if_neg hb, if_pos (List.length_pos.mpr hwl)]
  exact List.any_eq_true

/-- Claim C8: `MatchWildcard` implements full-string glob matching (`*` matches
zero or more characters, `?` exactly one, any other character itself, and the
pattern must cover the entire name), and `ShouldProcessWorkload` rejects
whenever some blacklist pattern matches (even if the whitelist also matches),
otherwise with a non-empty whitelist accepts exactly on a whitelist match, and
accepts when both lists are empty. -/
theorem claim_C8_pattern_matching :
    (∀ pattern str : String, MatchWildcard pattern str = true ↔ Glob pattern.data str.data) ∧
    (∀ (name : String) (wl bl : List String),
      (∃ pat ∈ bl, MatchWildcard pat name = true) →
      ShouldProcessWorkload name wl bl = false) ∧
    (∀ (name : String) (wl bl : List String),
      (∀ pat ∈ bl, MatchWildcard pat name = false) → wl ≠ [] →
      (ShouldProcessWorkload name wl bl = true ↔ ∃ pat ∈ wl, MatchWildcard pat name = true)) ∧
    (∀ name : String, ShouldProcessWorkload name [] [] = true) := by
  refine ⟨fun pattern str => matchWildcardHelper_iff pattern.data str.data,
    shouldProcess_blacklist_reject, shouldProcess_whitelist, fun name => ?_⟩
  unfold ShouldProcessWorkload
  simp

/-- Witness for C8 at concrete inputs: the pattern `*` matches the name `x`,
a blacklist match rejects even though the whitelist would match, and empty
lists accept. -/
theorem claim_C8_pattern_matching_witness :
    MatchWildcard "*" "x" = true ∧
    ShouldProcessWorkload "x" ["x"] ["*"] = false ∧
    ShouldProcessWorkload "x" [] [] = true := by
  have h1 : MatchWildcard "*" "x" = true :=
    (claim_C8_pattern_matching.1 "*" "x").mpr (Glob.star [] ['x'] [] Glob.nil)
  exact ⟨h1,
    claim_C8_pattern_matching.2.1 "x" ["x"] ["*"] ⟨"*", by simp, h1⟩,
    claim_C8_pattern_matching.2.2.2 "x"⟩

/-- Claim C3: under the manifest-based policy, a repository whose name is not
in the in-use set (derived from the manifest images by stripping the registry
host prefix and truncating at the last colon) is skipped entirely: its
artifacts are never listed, no audit row is emitted for it, and no delete call
is issued against it. -/
theorem claim_C3_not_in_use_skipped
    (dryRun : Bool) (harborDomain : String) (safeImageSet : List String)
    (contextMap : String → List ImageContext) (deleteOk : String → Bool)
    (listArtifacts : String → List Artifact) (repoName : String)
    (h : repoName ∉ inUseRepoNames safeImageSet harborDomain) :
    runK8sRepo dryRun harborDomain safeImageSet contextMap deleteOk listArtifacts repoName
      = ⟨0, [], [], []⟩ := by
  unfold runK8sRepo
  rw [if_neg h]

/-- Witness for C3: the repository `prod/api` is not named by the manifest, so
its outcome is empty even though the registry would report artifacts in it. -/
theorem claim_C3_not_in_use_skipped_witness :
    "prod/api" ∉ inUseRepoNames ["registry.example.com/dev/app1:v1.0.1"] "registry.example.com"
    ∧ runK8sRepo true "registry.example.com" ["registry.example.com/dev/app1:v1.0.1"]
        (fun _ => []) (fun _ => true) (fun _ => [⟨"sha256:zz", 5, [⟨"latest"⟩]⟩]) "prod/api"
      = ⟨0, [], [], []⟩ := by
  have h : "prod/api" ∉ inUseRepoNames ["registry.example.com/dev/app1:v1.0.1"]
      "registry.example.com" := by decide
  exact ⟨h, claim_C3_not_in_use_skipped true "registry.example.com"
    ["registry.example.com/dev/app1:v1.0.1"] (fun _ => []) (fun _ => true)
    (fun _ => [⟨"sha256:zz", 5, [⟨"latest"⟩]⟩]) "prod/api" h⟩

/-- Claim C1, failing input: `RunKubernetesStrategy` looks up only the FIRST
tag of an artifact in the safe-image set.  The artifact below carries the
manifest-listed reference `registry.example.com/dev/app1:v1.0.0` as its second
tag, yet it is classified DELETED and a delete call is issued for its digest —
deleting the digest also erases the manifest-listed tag `v1.0.0`, so an image
present in the manifest is deleted by the cleanup stage. -/
theorem claim_C1_secondary_tag_deleted :
    ((⟨"v1.0.0"⟩ : Tag) ∈ ([⟨"v2.0.0"⟩, ⟨"v1.0.0"⟩] : List Tag))
    ∧ ("registry.example.com/dev/app1:v1.0.0"
        ∈ (["registry.example.com/dev/app1:v1.0.0"] : List String))
    ∧ k8sRepoLoop false "registry.example.com" "dev/app1"
        ["registry.example.com/dev/app1:v1.0.0"] (fun _ => []) (fun _ => true)
        [⟨"sha256:abc", 0, [⟨"v2.0.0"⟩, ⟨"v1.0.0"⟩]⟩]
      = ⟨1, [["registry.example.com/dev/app1:v2.0.0", "DELETED", "-", "-",
              "Not found in K8s manifest file"]], ["sha256:abc"]⟩ := by
  refine ⟨by decide, by decide, by decide⟩

/-- Claim C10: both per-repository walks evaluate a tagged artifact from its
first tag (and digest and push time) alone — two artifacts that agree on
digest, push time and first tag produce identical classifications, audit rows
and delete calls, whatever their remaining tags are. -/
theorem claim_C10_first_tag_only
    (dryRun : Bool) (keepLastN maxSnapshots : Nat)
    (baseURL repoName harborDomain : String) (deleteOk : String → Bool)
    (safeImageSet : List String) (contextMap : String → List ImageContext)
    (a1 a2 : Artifact) (rest : List Artifact) (i ks : Nat)
    (hdig : a1.digest = a2.digest) (hpush : a1.pushTime = a2.pushTime)
    (htags : a1.tags.head? = a2.tags.head?) :
    harborRepoLoop dryRun keepLastN maxSnapshots baseURL repoName deleteOk (a1 :: rest) i ks
      = harborRepoLoop dryRun keepLastN maxSnapshots baseURL repoName deleteOk (a2 :: rest) i ks
    ∧ k8sRepoLoop dryRun harborDomain repoName safeImageSet contextMap deleteOk (a1 :: rest)
      = k8sRepoLoop dryRun harborDomain repoName safeImageSet contextMap deleteOk (a2 :: rest) := by
  obtain ⟨d1, p1, t1⟩ := a1
  obtain ⟨d2, p2, t2⟩ := a2
  simp only at hdig hpush htags
  subst hdig
  subst hpush
  cases t1 with
  | nil =>
    cases t2 with
    | nil => exact ⟨rfl, rfl⟩
    | cons tg2 tl2 => simp at htags
  | cons tg tl =>
    cases t2 with
    | nil => simp at htags
    | cons tg2 tl2 =>
      have heq : tg = tg2 := by simpa using htags
      subst heq
      exact ⟨rfl, rfl⟩

/-- Witness for C10: dropping a second tag does not change the outcome. -/
theorem claim_C10_first_tag_only_witness :
    harborRepoLoop true 1 1 "h" "r" (fun _ => true)
        [⟨"d", 3, [⟨"v1"⟩, ⟨"extra"⟩]⟩] 0 0
      = harborRepoLoop true 1 1 "h" "r" (fun _ => true) [⟨"d", 3, [⟨"v1"⟩]⟩] 0 0 :=
  (claim_C10_first_tag_only true 1 1 "h" "r" "h" (fun _ => true) [] (fun _ => [])
    ⟨"d", 3, [⟨"v1"⟩, ⟨"extra"⟩]⟩ ⟨"d", 3, [⟨"v1"⟩]⟩ [] 0 0 rfl rfl rfl).1

lemma harborRepoLoop_dry_live (keepLastN maxSnapshots : Nat) (baseURL repoName : String)
    (deleteOk : String → Bool) :
    ∀ (arts : List Artifact) (i ks : Nat),
      (harborRepoLoop true keepLastN maxSnapshots baseURL repoName deleteOk arts i ks).deleteCalls = []
      ∧ (harborRepoLoop false keepLastN maxSnapshots baseURL repoName (fun _ => true) arts i ks).audit
        = (harborRepoLoop true keepLastN maxSnapshots baseURL repoName deleteOk arts i ks).audit.map relabelRecord
      ∧ (harborRepoLoop false keepLastN maxSnapshots baseURL repoName (fun _ => true) arts i ks).deleted
        = (harborRepoLoop true keepLastN maxSnapshots baseURL repoName deleteOk arts i ks).deleted := by
  intro arts
  induction arts with
  | nil => intro i ks; simp [harborRepoLoop]
  | cons art rest ih =>
    intro i ks
    obtain ⟨d, pt, tags⟩ := art
    cases tags with
    | nil => simpa [harborRepoLoop] using ih (i + 1) ks
    | cons tg tl =>
      obtain ⟨h1, h2, h3⟩ := ih (i + 1) (harborKeepStep keepLastN maxSnapshots i ks tg.name).2
      by_cases hkeep : (harborKeepStep keepLastN maxSnapshots i ks tg.name).1 = true
      · simp [harborRepoLoop, hkeep, relabelRecord, h1, h2, h3]
      · simp [harborRepoLoop, hkeep, relabelRecord, h1, h2, h3]

lemma k8sRepoLoop_dry_live (harborDomain repoName : String) (safeImageSet : List String)
    (contextMap : String → List ImageContext) (deleteOk : String → Bool) :
    ∀ (arts : List Artifact),
      (k8sRepoLoop true harborDomain repoName safeImageSet contextMap deleteOk arts).deleteCalls = []
      ∧ (k8sRepoLoop false harborDomain repoName safeImageSet contextMap (fun _ => true) arts).audit
        = (k8sRepoLoop true harborDomain repoName safeImageSet contextMap deleteOk arts).audit.map relabelRecord
      ∧ (k8sRepoLoop false harborDomain repoName safeImageSet contextMap (fun _ => true) arts).deleted
        = (k8sRepoLoop true harborDomain repoName safeImageSet contextMap deleteOk arts).deleted := by
  intro arts
  induction arts with
  | nil => simp [k8sRepoLoop]
  | cons art rest ih =>
    obtain ⟨h1, h2, h3⟩ := ih
    obtain ⟨d, pt, tags⟩ := art
    cases tags with
    | nil => simpa [k8sRepoLoop] using ⟨h1, h2, h3⟩
    | cons tg tl =>
      by_cases hsafe : (harborDomain ++ "/" ++ repoName ++ ":" ++ tg.name) ∈ safeImageSet
      · simp [k8sRepoLoop, hsafe, relabelRecord, h1, h2, h3]
      · simp [k8sRepoLoop, hsafe, relabelRecord, h1, h2, h3]

/-- Claim C6: a dry run issues no delete call and computes exactly the same
KEPT-versus-DELETE classification as the equivalent live run in which every
delete succeeds; the audit rows differ only in the status label, `TO BE
DELETED` in place of `DELETED` (and the deleted counters agree).  Stated for
the per-repository walks of both policies. -/
theorem claim_C6_dry_run_equivalence
    (keepLastN maxSnapshots : Nat) (baseURL repoName harborDomain : String)
    (deleteOk : String → Bool) (safeImageSet : List String)
    (contextMap : String → List ImageContext)
    (arts k8sArts : List Artifact) (i ks : Nat) :
    (harborRepoLoop true keepLastN maxSnapshots baseURL repoName deleteOk arts i ks).deleteCalls = []
    ∧ (harborRepoLoop false keepLastN maxSnapshots baseURL repoName (fun _ => true) arts i ks).audit
      = (harborRepoLoop true keepLastN maxSnapshots baseURL repoName deleteOk arts i ks).audit.map relabelRecord
    ∧ (harborRepoLoop false keepLastN maxSnapshots baseURL repoName (fun _ => true) arts i ks).deleted
      = (harborRepoLoop true keepLastN maxSnapshots baseURL repoName deleteOk arts i ks).deleted
    ∧ (k8sRepoLoop true harborDomain repoName safeImageSet contextMap deleteOk k8sArts).deleteCalls = []
    ∧ (k8sRepoLoop false harborDomain repoName safeImageSet contextMap (fun _ => true) k8sArts).audit
      = (k8sRepoLoop true harborDomain repoName safeImageSet contextMap deleteOk k8sArts).audit.map relabelRecord
    ∧ (k8sRepoLoop false harborDomain repoName safeImageSet contextMap (fun _ => true) k8sArts).deleted
      = (k8sRepoLoop true harborDomain repoName safeImageSet contextMap deleteOk k8sArts).deleted := by
  obtain ⟨h1, h2, h3⟩ :=
    harborRepoLoop_dry_live keepLastN maxSnapshots baseURL repoName deleteOk arts i ks
  obtain ⟨h4, h5, h6⟩ :=
    k8sRepoLoop_dry_live harborDomain repoName safeImageSet contextMap deleteOk k8sArts
  exact ⟨h1, h2, h3, h4, h5, h6⟩

lemma harborKeepDecisions_cons_tagged (kl ms : Nat) (d : String) (pt : Int)
    (tg : Tag) (tl : List Tag) (rest : List Artifact) (i ks : Nat) :
    harborKeepDecisions kl ms (⟨d, pt, tg :: tl⟩ :: rest) i ks
      = (⟨d, pt, tg :: tl⟩, (harborKeepStep kl ms i ks tg.name).1) ::
        harborKeepDecisions kl ms rest (i + 1) (harborKeepStep kl ms i ks tg.name).2 := rfl

lemma harborKeepDecisions_cons_untagged (kl ms : Nat) (d : String) (pt : Int)
    (rest : List Artifact) (i ks : Nat) :
    harborKeepDecisions kl ms (⟨d, pt, []⟩ :: rest) i ks
      = harborKeepDecisions kl ms rest (i + 1) ks := rfl

lemma ksAfter_cons_tagged (kl ms : Nat) (d : String) (pt : Int)
    (tg : Tag) (tl : List Tag) (rest : List Artifact) (i ks : Nat) :
    ksAfter kl ms (⟨d, pt, tg :: tl⟩ :: rest) i ks
      = ksAfter kl ms rest (i + 1) (harborKeepStep kl ms i ks tg.name).2 := rfl

lemma ksAfter_cons_untagged (kl ms : Nat) (d : String) (pt : Int)
    (rest : List Artifact) (i ks : Nat) :
    ksAfter kl ms (⟨d, pt, []⟩ :: rest) i ks = ksAfter kl ms rest (i + 1) ks := rfl

lemma harborKeepStep_snd_of_cap (keepLastN maxSnapshots i ks : Nat) (t : String)
    (h : maxSnapshots ≤ ks) : (harborKeepStep keepLastN maxSnapshots i ks t).2 = ks := by
  unfold harborKeepStep
  split_ifs <;> first | rfl | omega

lemma harborKeepDecisions_snap_count (keepLastN maxSnapshots : Nat) :
    ∀ (arts : List Artifact) (i ks : Nat),
      (harborKeepDecisions keepLastN maxSnapshots arts i ks).countP
            (fun p => artIsSnapshot p.1 && p.2) ≤ maxSnapshots - ks := by
  intro arts
  induction arts with
  | nil =>
    intro i ks
    simp [harborKeepDecisions]
  | cons art rest ih =>
    intro i ks
    obtain ⟨d, pt, tags⟩ := art
    cases tags with
    | nil =>
      rw [harborKeepDecisions_cons_untagged]
      exact ih (i + 1) ks
    | cons tg tl =>
      rw [harborKeepDecisions_cons_tagged, List.countP_cons]
      by_cases hi : i < keepLastN
      · by_cases hsnap : isSnapshotTag tg.name
        · by_cases hks : ks < maxSnapshots
          · have hstep : harborKeepStep keepLastN maxSnapshots i ks tg.name = (true, ks + 1) := by
              unfold harborKeepStep
              rw [if_pos hi, if_pos hsnap, if_pos hks]
            have h := ih (i + 1) (ks + 1)
            rw [hstep]
            dsimp only
            rw [Bool.and_true]
            have hart : artIsSnapshot ⟨d, pt, tg :: tl⟩ = true := by
              simpa [artIsSnapshot, headTagName] using hsnap
            rw [hart, if_pos rfl]
            omega
          · have hstep : harborKeepStep keepLastN maxSnapshots i ks tg.name = (false, ks) := by
              unfold harborKeepStep
              rw [if_pos hi, if_pos hsnap, if_neg hks]
            have h := ih (i + 1) ks
            rw [hstep]
            dsimp only
            rw [Bool.and_false, if_neg (by decide)]
            omega
        · have hstep : harborKeepStep keepLastN maxSnapshots i ks tg.name = (true, ks) := by
            unfold harborKeepStep
            rw [if_pos hi, if_neg hsnap]
          have h := ih (i + 1) ks
          rw [hstep]
          dsimp only
          rw [Bool.and_true]
          have hart : artIsSnapshot ⟨d, pt, tg :: tl⟩ = false := by
            simpa [artIsSnapshot, headTagName] using hsnap
          rw [hart, if_neg (by decide)]
          omega
      · have hstep : harborKeepStep keepLastN maxSnapshots i ks tg.name = (false, ks) := by
          unfold harborKeepStep
          rw [if_neg hi]
        have h := ih (i + 1) ks
        rw [hstep]
        dsimp only
        rw [Bool.and_false, if_neg (by decide)]
        omega

lemma harborKeepDecisions_cap_reached (keepLastN maxSnapshots : Nat) :
    ∀ (arts : List Artifact) (i ks : Nat), maxSnapshots ≤ ks →
      ∀ a b, (a, b) ∈ harborKeepDecisions keepLastN maxSnapshots arts i ks →
        artIsSnapshot a = true → b = false := by
  intro arts
  induction arts with
  | nil => intro i ks _ a b hmem; simp [harborKeepDecisions] at hmem
  | cons art rest ih =>
    intro i ks hks a b hmem hsnap
    obtain ⟨d, pt, tags⟩ := art
    cases tags with
    | nil =>
      rw [harborKeepDecisions_cons_untagged] at hmem
      exact ih (i + 1) ks hks a b hmem hsnap
    | cons tg tl =>
      rw [harborKeepDecisions_cons_tagged] at hmem
      rcases List.mem_cons.mp hmem with heq | htail
      · have hb : b = (harborKeepStep keepLastN maxSnapshots i ks tg.name).1 :=
          congrArg Prod.snd heq
        have ha : a = ⟨d, pt, tg :: tl⟩ := congrArg Prod.fst heq
        subst ha
        have hsnap' : isSnapshotTag tg.name = true := by
          simpa [artIsSnapshot, headTagName] using hsnap
        rw [hb]
        unfold harborKeepStep
        by_cases hi : i < keepLastN
        · rw [if_pos hi, if_pos hsnap', if_neg (by omega)]
        · rw [if_neg hi]
      · rw [harborKeepStep_snd_of_cap keepLastN maxSnapshots i ks tg.name hks] at htail
        exact ih (i + 1) ks hks a b htail hsnap

lemma harborKeepDecisions_append (keepLastN maxSnapshots : Nat) :
    ∀ (xs ys : List Artifact) (i ks : Nat),
      harborKeepDecisions keepLastN maxSnapshots (xs ++ ys) i ks
        = harborKeepDecisions keepLastN maxSnapshots xs i ks
          ++ harborKeepDecisions keepLastN maxSnapshots ys (i + xs.length)
               (ksAfter keepLastN maxSnapshots xs i ks) := by
  intro xs
  induction xs with
  | nil => intro ys i ks; simp [harborKeepDecisions, ksAfter]
  | cons art rest ih =>
    intro ys i ks
    obtain ⟨d, pt, tags⟩ := art
    cases tags with
    | nil =>
      rw [List.cons_append, harborKeepDecisions_cons_untagged,
        harborKeepDecisions_cons_untagged, ksAfter_cons_untagged, List.length_cons,
        show i + (rest.length + 1) = i + 1 + rest.length from by omega]
      exact ih ys (i + 1) ks
    | cons tg tl =>
      rw [List.cons_append, harborKeepDecisions_cons_tagged,
        harborKeepDecisions_cons_tagged, ksAfter_cons_tagged, List.length_cons,
        show i + (rest.length + 1) = i + 1 + rest.length from by omega,
        ih ys (i + 1) _, List.cons_append]

lemma harborKeepDecisions_delete_from (keepLastN maxSnapshots : Nat)
    (pre post : List Artifact) (a : Artifact) (i ks : Nat)
    (hi : keepLastN ≤ i + pre.length) (ht : a.tags ≠ []) :
    harborKeepDecisions keepLastN maxSnapshots (pre ++ a :: post) i ks
      = harborKeepDecisions keepLastN maxSnapshots pre i ks
        ++ (a, false) :: harborKeepDecisions keepLastN maxSnapshots post (i + pre.length + 1)
             (ksAfter keepLastN maxSnapshots pre i ks) := by
  rw [harborKeepDecisions_append]
  congr 1
  obtain ⟨d, pt, tags⟩ := a
  cases tags with
  | nil => exact absurd rfl ht
  | cons tg tl =>
    rw [harborKeepDecisions_cons_tagged]
    have hstep : harborKeepStep keepLastN maxSnapshots (i + pre.length)
        (ksAfter keepLastN maxSnapshots pre i ks) tg.name
        = (false, ksAfter keepLastN maxSnapshots pre i ks) := by
      unfold harborKeepStep
      rw [if_neg (by omega)]
    rw [hstep]

lemma harborKeepDecisions_fst (keepLastN maxSnapshots : Nat) :
    ∀ (arts : List Artifact) (i ks : Nat),
      (harborKeepDecisions keepLastN maxSnapshots arts i ks).map Prod.fst
        = arts.filter (fun a => !a.tags.isEmpty) := by
  intro arts
  induction arts with
  | nil => intro i ks; simp [harborKeepDecisions]
  | cons art rest ih =>
    intro i ks
    obtain ⟨d, pt, tags⟩ := art
    cases tags with
    | nil =>
      rw [harborKeepDecisions_cons_untagged]
      simpa [List.filter] using ih (i + 1) ks
    | cons tg tl =>
      rw [harborKeepDecisions_cons_tagged]
      simpa [List.filter] using
        ih (i + 1) (harborKeepStep keepLastN maxSnapshots i ks tg.name).2

lemma harborRepoLoop_audit_length (dryRun : Bool) (keepLastN maxSnapshots : Nat)
    (baseURL repoName : String) (deleteOk : String → Bool) :
    ∀ (arts : List Artifact) (i ks : Nat),
      (harborRepoLoop dryRun keepLastN maxSnapshots baseURL repoName deleteOk arts i ks).audit.length
        = (arts.filter (fun a => !a.tags.isEmpty)).length := by
  intro arts
  induction arts with
  | nil => intro i ks; simp [harborRepoLoop]
  | cons art rest ih =>
    intro i ks
    obtain ⟨d, pt, tags⟩ := art
    cases tags with
    | nil => simpa [harborRepoLoop, List.filter] using ih (i + 1) ks
    | cons tg tl =>
      have h := ih (i + 1) (harborKeepStep keepLastN maxSnapshots i ks tg.name).2
      by_cases hkeep : (harborKeepStep keepLastN maxSnapshots i ks tg.name).1 = true
      · simp [harborRepoLoop, hkeep, List.filter, h]
      · cases dryRun <;> simp [harborRepoLoop, hkeep, List.filter, h]

lemma harborKeepDecisions_nonsnap_kept (keepLastN maxSnapshots : Nat) :
    ∀ (arts : List Artifact) (i ks : Nat), i + arts.length ≤ keepLastN →
      ∀ a b, (a, b) ∈ harborKeepDecisions keepLastN maxSnapshots arts i ks →
        artIsSnapshot a = false → b = true := by
  intro arts
  induction arts with
  | nil => intro i ks _ a b hmem; simp [harborKeepDecisions] at hmem
  | cons art rest ih =>
    intro i ks hlen a b hmem hsnap
    have hlen' : i + 1 + rest.length ≤ keepLastN := by
      simp only [List.length_cons] at hlen
      omega
    obtain ⟨d, pt, tags⟩ := art
    cases tags with
    | nil =>
      rw [harborKeepDecisions_cons_untagged] at hmem
      exact ih (i + 1) ks hlen' a b hmem hsnap
    | cons tg tl =>
      rw [harborKeepDecisions_cons_tagged] at hmem
      rcases List.mem_cons.mp hmem with heq | htail
      · have hb : b = (harborKeepStep keepLastN maxSnapshots i ks tg.name).1 :=
          congrArg Prod.snd heq
        have ha : a = ⟨d, pt, tg :: tl⟩ := congrArg Prod.fst heq
        subst ha
        have hsnap' : isSnapshotTag tg.name = false := by
          simpa [artIsSnapshot, headTagName] using hsnap
        rw [hb]
        unfold harborKeepStep
        rw [if_pos (by omega), if_neg (by simp [hsnap'])]
      · exact ih (i + 1) _ hlen' a b htail hsnap

/-- Claim C2, amended: the stated cap/no-backfill behaviour holds for the
`RunHarborStrategy` walk (`harborKeepDecisions`): at most `maxSnapshots`
snapshot-tagged artifacts are kept; once the counter has reached the cap every
later snapshot-tagged artifact is classified DELETE even inside the window; an
artifact at position ≥ `keepLastN` is always classified DELETE (no
backfilling); and Scenario B comes out as the claim lists it.  (The standalone
v5 variant violates the no-backfill clause — see the counterexample.) -/
theorem claim_C2_snapshot_cap_amended :
    (∀ (keepLastN maxSnapshots : Nat) (arts : List Artifact),
      List.Pairwise (fun a b : Artifact => b.pushTime ≤ a.pushTime) arts →
      (harborKeepDecisions keepLastN maxSnapshots arts 0 0).countP
          (fun p => artIsSnapshot p.1 && p.2) ≤ maxSnapshots
      ∧ (∀ (i ks : Nat), maxSnapshots ≤ ks →
          ∀ a b, (a, b) ∈ harborKeepDecisions keepLastN maxSnapshots arts i ks →
            artIsSnapshot a = true → b = false)
      ∧ (∀ (pre post : List Artifact) (a : Artifact),
          arts = pre ++ a :: post → keepLastN ≤ pre.length → a.tags ≠ [] →
          harborKeepDecisions keepLastN maxSnapshots arts 0 0
            = harborKeepDecisions keepLastN maxSnapshots pre 0 0
              ++ (a, false) :: harborKeepDecisions keepLastN maxSnapshots post (pre.length + 1)
                   (ksAfter keepLastN maxSnapshots pre 0 0)))
    ∧ harborKeepDecisions 3 1
        [⟨"dc", 4, [⟨"c-SNAPSHOT"⟩]⟩, ⟨"db", 3, [⟨"b-SNAPSHOT"⟩]⟩,
         ⟨"da", 2, [⟨"rel-a"⟩]⟩, ⟨"dz", 1, [⟨"rel-z"⟩]⟩] 0 0
      = [(⟨"dc", 4, [⟨"c-SNAPSHOT"⟩]⟩, true), (⟨"db", 3, [⟨"b-SNAPSHOT"⟩]⟩, false),
         (⟨"da", 2, [⟨"rel-a"⟩]⟩, true), (⟨"dz", 1, [⟨"rel-z"⟩]⟩, false)] := by
  constructor
  · intro keepLastN maxSnapshots arts _
    refine ⟨?_, ?_, ?_⟩
    · simpa using harborKeepDecisions_snap_count keepLastN maxSnapshots arts 0 0
    · intro i ks hks a b hmem hsnap
      exact harborKeepDecisions_cap_reached keepLastN maxSnapshots arts i ks hks a b hmem hsnap
    · intro pre post a harts hpre ht
      subst harts
      have h := harborKeepDecisions_delete_from keepLastN maxSnapshots pre post a 0 0
        (by omega) ht
      simpa using h
  · decide

/-- Counterexample to C2 as stated: the v5 variant of the time-based policy
(cited by the claim) counts the keep window by artifacts actually kept, so the
slot freed by the over-cap snapshot `b-SNAPSHOT` IS backfilled: in Scenario B
(`keepLastN = 3`, `maxSnapshots = 1`) the artifact `rel-z`, at position 3 ≥
keepLastN, is classified KEEP, not DELETE. -/
theorem claim_C2_counterexample :
    v5Repo 3 1
        [⟨"dc", 4, [⟨"c-SNAPSHOT"⟩]⟩, ⟨"db", 3, [⟨"b-SNAPSHOT"⟩]⟩,
         ⟨"da", 2, [⟨"rel-a"⟩]⟩, ⟨"dz", 1, [⟨"rel-z"⟩]⟩]
      = [(⟨"dc", 4, [⟨"c-SNAPSHOT"⟩]⟩, true), (⟨"db", 3, [⟨"b-SNAPSHOT"⟩]⟩, false),
         (⟨"da", 2, [⟨"rel-a"⟩]⟩, true), (⟨"dz", 1, [⟨"rel-z"⟩]⟩, true)]
    ∧ (⟨"dz", 1, [⟨"rel-z"⟩]⟩, true)
        ∈ v5Repo 3 1
            [⟨"dc", 4, [⟨"c-SNAPSHOT"⟩]⟩, ⟨"db", 3, [⟨"b-SNAPSHOT"⟩]⟩,
             ⟨"da", 2, [⟨"rel-a"⟩]⟩, ⟨"dz", 1, [⟨"rel-z"⟩]⟩] := by
  refine ⟨by decide, by decide⟩

/-- Witness for C2 (amended) at Scenario B, whose list is sorted by descending
push time. -/
theorem claim_C2_snapshot_cap_amended_witness :
    (harborKeepDecisions 3 1
        [⟨"dc", 4, [⟨"c-SNAPSHOT"⟩]⟩, ⟨"db", 3, [⟨"b-SNAPSHOT"⟩]⟩,
         ⟨"da", 2, [⟨"rel-a"⟩]⟩, ⟨"dz", 1, [⟨"rel-z"⟩]⟩] 0 0).countP
        (fun p => artIsSnapshot p.1 && p.2) ≤ 1 := by
  have h := (claim_C2_snapshot_cap_amended.1 3 1
    [⟨"dc", 4, [⟨"c-SNAPSHOT"⟩]⟩, ⟨"db", 3, [⟨"b-SNAPSHOT"⟩]⟩,
     ⟨"da", 2, [⟨"rel-a"⟩]⟩, ⟨"dz", 1, [⟨"rel-z"⟩]⟩] (by decide)).1
  exact h

/-- Claim C4, amended: in `RunHarborStrategy`, when all positions of the
repository's artifact list lie inside the `keepLastN` window, every
NON-snapshot artifact is kept — but a snapshot-tagged artifact beyond the
`maxSnapshots` cap is still classified DELETE even then (see the
counterexample); in the v5 variant such a repository is skipped entirely, so
no artifact of it is classified at all. -/
theorem claim_C4_small_repo_amended :
    (∀ (keepLastN maxSnapshots : Nat) (arts : List Artifact) (i ks : Nat),
      i + arts.length ≤ keepLastN →
      ∀ a b, (a, b) ∈ harborKeepDecisions keepLastN maxSnapshots arts i ks →
        artIsSnapshot a = false → b = true)
    ∧ (∀ (keepLastN maxSnapshots : Nat) (sortedTagged : List Artifact),
      sortedTagged.length ≤ keepLastN → v5Repo keepLastN maxSnapshots sortedTagged = []) := by
  constructor
  · intro keepLastN maxSnapshots arts i ks hlen a b hmem hsnap
    exact harborKeepDecisions_nonsnap_kept keepLastN maxSnapshots arts i ks hlen a b hmem hsnap
  · intro keepLastN maxSnapshots sortedTagged hlen
    unfold v5Repo
    rw [if_pos hlen]

/-- Counterexample to C4 as stated: a repository with 2 artifacts and
`keepLastN = 5` (count ≤ keepLastN) still gets a DELETE classification from
`RunHarborStrategy` when both artifacts are snapshot-tagged and
`maxSnapshots = 1`. -/
theorem claim_C4_counterexample :
    ([⟨"da", 2, [⟨"x-SNAPSHOT"⟩]⟩, ⟨"db", 1, [⟨"y-SNAPSHOT"⟩]⟩] : List Artifact).length ≤ 5
    ∧ (⟨"db", 1, [⟨"y-SNAPSHOT"⟩]⟩, false)
        ∈ harborKeepDecisions 5 1
            [⟨"da", 2, [⟨"x-SNAPSHOT"⟩]⟩, ⟨"db", 1, [⟨"y-SNAPSHOT"⟩]⟩] 0 0 := by
  refine ⟨by decide, by decide⟩

/-- Witness for C4 (amended) at concrete inputs. -/
theorem claim_C4_small_repo_amended_witness :
    v5Repo 2 5 [⟨"d", 1, [⟨"v"⟩]⟩] = [] ∧ (true : Bool) = true := by
  refine ⟨claim_C4_small_repo_amended.2 2 5 [⟨"d", 1, [⟨"v"⟩]⟩] (by decide), ?_⟩
  exact claim_C4_small_repo_amended.1 3 0
    [⟨"d2", 2, [⟨"v2"⟩]⟩, ⟨"d1", 1, [⟨"v1"⟩]⟩] 0 0 (by decide)
    ⟨"d1", 1, [⟨"v1"⟩]⟩ true (by decide) (by decide)

/-- Claim C5, amended: in `RunHarborStrategy` tagless artifacts receive no
classification and no audit row (the decisions project exactly onto the
tag-filtered list, and the audit row count equals the tagged count), but the
positions walked against `keepLastN` are positions in the FULL sorted list —
a tagless artifact still occupies a keep-window slot (see the counterexample).
Every tagged artifact preceded by at least `keepLastN` artifacts of the
filtered list is nevertheless classified DELETE, since its raw position is at
least its filtered position. -/
theorem claim_C5_tagless_amended :
    (∀ (keepLastN maxSnapshots : Nat) (arts : List Artifact) (i ks : Nat),
      (harborKeepDecisions keepLastN maxSnapshots arts i ks).map Prod.fst
        = arts.filter (fun a => !a.tags.isEmpty))
    ∧ (∀ (dryRun : Bool) (keepLastN maxSnapshots : Nat) (baseURL repoName : String)
        (deleteOk : String → Bool) (arts : List Artifact) (i ks : Nat),
      (harborRepoLoop dryRun keepLastN maxSnapshots baseURL repoName deleteOk arts i ks).audit.length
        = (arts.filter (fun a => !a.tags.isEmpty)).length)
    ∧ (∀ (keepLastN maxSnapshots : Nat) (pre post : List Artifact) (a : Artifact),
      keepLastN ≤ (pre.filter (fun x => !x.tags.isEmpty)).length → a.tags ≠ [] →
      harborKeepDecisions keepLastN maxSnapshots (pre ++ a :: post) 0 0
        = harborKeepDecisions keepLastN maxSnapshots pre 0 0
          ++ (a, false) :: harborKeepDecisions keepLastN maxSnapshots post (pre.length + 1)
               (ksAfter keepLastN maxSnapshots pre 0 0)) := by
  refine ⟨harborKeepDecisions_fst, harborRepoLoop_audit_length, ?_⟩
  intro keepLastN maxSnapshots pre post a hlen ht
  have hfl : (pre.filter (fun x => !x.tags.isEmpty)).length ≤ pre.length :=
    List.length_filter_le _ _
  have h := harborKeepDecisions_delete_from keepLastN maxSnapshots pre post a 0 0
    (by omega) ht
  simpa using h

/-- Counterexample to C5 as stated: with `keepLastN = 1`, a tagless artifact at
position 0 of the full sorted list occupies the single keep-window slot in
`RunHarborStrategy`; the tagged artifact `rel-a` — position 0 of the
tag-filtered list, inside the claimed window — is classified DELETE. -/
theorem claim_C5_counterexample :
    harborKeepDecisions 1 0
        [⟨"t0", 3, []⟩, ⟨"ta", 2, [⟨"rel-a"⟩]⟩, ⟨"tb", 1, [⟨"rel-b"⟩]⟩] 0 0
      = [(⟨"ta", 2, [⟨"rel-a"⟩]⟩, false), (⟨"tb", 1, [⟨"rel-b"⟩]⟩, false)]
    ∧ (⟨"ta", 2, [⟨"rel-a"⟩]⟩, true)
        ∉ harborKeepDecisions 1 0
            [⟨"t0", 3, []⟩, ⟨"ta", 2, [⟨"rel-a"⟩]⟩, ⟨"tb", 1, [⟨"rel-b"⟩]⟩] 0 0 := by
  refine ⟨by decide, by decide⟩

/-- Witness for C5 (amended) at concrete inputs. -/
theorem claim_C5_tagless_amended_witness :
    (harborKeepDecisions 1 0 [⟨"t0", 3, []⟩, ⟨"ta", 2, [⟨"rel-a"⟩]⟩] 0 0).map Prod.fst
      = [⟨"t0", 3, []⟩, ⟨"ta", 2, [⟨"rel-a"⟩]⟩].filter (fun a => !a.tags.isEmpty)
    ∧ harborKeepDecisions 1 0 ([⟨"y", 8, [⟨"v"⟩]⟩] ++ ⟨"z", 7, [⟨"w"⟩]⟩ :: []) 0 0
      = harborKeepDecisions 1 0 [⟨"y", 8, [⟨"v"⟩]⟩] 0 0
        ++ (⟨"z", 7, [⟨"w"⟩]⟩, false)
          :: harborKeepDecisions 1 0 []
               (([⟨"y", 8, [⟨"v"⟩]⟩] : List Artifact).length + 1)
               (ksAfter 1 0 [⟨"y", 8, [⟨"v"⟩]⟩] 0 0) := by
  refine ⟨claim_C5_tagless_amended.1 1 0 _ 0 0, ?_⟩
  exact claim_C5_tagless_amended.2.2 1 0 [⟨"y", 8, [⟨"v"⟩]⟩] [] ⟨"z", 7, [⟨"w"⟩]⟩
    (by decide) (by decide)

lemma readSafeImageSet_toManifestRows :
    ∀ (records : List SafeImageInfo),
      (∀ r ∈ records, trimSpace r.image = r.image ∧ r.image ≠ "") →
      readSafeImageSet (toManifestRows records) = records.map (fun r => r.image) := by
  intro records
  induction records with
  | nil => intro _; rfl
  | cons r rest ih =>
    intro h
    obtain ⟨htrim, hne⟩ := h r (List.mem_cons_self r rest)
    have hrest := ih (fun x hx => h x (List.mem_cons_of_mem _ hx))
    unfold readSafeImageSet manifestDataRows toManifestRows at hrest ⊢
    simp only [List.drop_succ_cons, List.drop_zero, List.map_cons, List.filterMap_cons] at hrest ⊢
    rw [htrim, if_neg hne]
    simpa using hrest

lemma readContextMap_nonempty (rows : List (List String)) (image : String)
    (h : image ∈ readSafeImageSet rows) : readContextMap rows image ≠ [] := by
  unfold readSafeImageSet at h
  rcases List.mem_map.mp h with ⟨t, htmem, hteq⟩
  unfold readContextMap
  intro hempty
  have hfil : t ∈ (manifestDataRows rows).filter (fun t => t.1 == image) :=
    List.mem_filter.mpr ⟨htmem, by simp [hteq]⟩
  rw [List.map_eq_nil_iff.mp hempty] at hfil
  cases hfil

/-- Claim C7, amended: writing aggregated records as manifest rows and reading
them back yields the same safe-image set (as a set) PROVIDED every record's
image is non-empty and carries no surrounding whitespace (`ReadManifestFromCSV`
trims each field and drops rows whose trimmed image is empty — see the
counterexample); and unconditionally, every image of a returned safe-image set
also has at least one context in the returned context map. -/
theorem claim_C7_manifest_round_trip :
    (∀ (records : List SafeImageInfo),
      (∀ r ∈ records, trimSpace r.image = r.image ∧ r.image ≠ "") →
      ∀ img, img ∈ readSafeImageSet (toManifestRows records)
        ↔ img ∈ records.map (fun r => r.image))
    ∧ (∀ (rows : List (List String)) (img : String),
      img ∈ readSafeImageSet rows → readContextMap rows img ≠ []) := by
  constructor
  · intro records h img
    rw [readSafeImageSet_toManifestRows records h]
  · exact readContextMap_nonempty

/-- Counterexample to C7 as stated: a record whose image has surrounding
whitespace does not round-trip — `ReadManifestFromCSV` trims it, so the
returned safe-image set differs (as a set) from the aggregated image set. -/
theorem claim_C7_counterexample :
    readSafeImageSet (toManifestRows [⟨" app:v1 ", "e", "n"⟩]) = ["app:v1"]
    ∧ " app:v1 " ∈ ([⟨" app:v1 ", "e", "n"⟩] : List SafeImageInfo).map (fun r => r.image)
    ∧ " app:v1 " ∉ readSafeImageSet (toManifestRows [⟨" app:v1 ", "e", "n"⟩]) := by
  refine ⟨by decide, by decide, by decide⟩

/-- Witness for C7 at a concrete clean record list and row list. -/
theorem claim_C7_manifest_round_trip_witness :
    ("img:v1" ∈ readSafeImageSet (toManifestRows [⟨"img:v1", "e", "n"⟩])
      ↔ "img:v1" ∈ ([⟨"img:v1", "e", "n"⟩] : List SafeImageInfo).map (fun r => r.image))
    ∧ readContextMap [["image", "environment", "namespace"], ["img:v1", "e", "n"]] "img:v1" ≠ [] := by
  refine ⟨claim_C7_manifest_round_trip.1 [⟨"img:v1", "e", "n"⟩] (by decide) "img:v1",
    claim_C7_manifest_round_trip.2 [["image", "environment", "namespace"], ["img:v1", "e", "n"]]
      "img:v1" (by decide)⟩

lemma firstOcc_sublist : ∀ (l : List RevisionInfo) (seen : List String),
    (firstOcc l seen).Sublist l := by
  intro l
  induction l with
  | nil => intro seen; simp [firstOcc]
  | cons r rest ih =>
    intro seen
    rw [firstOcc]
    by_cases hs : r.image ∈ seen
    · rw [if_pos hs]
      exact (ih seen).cons r
    · rw [if_neg hs]
      exact (ih (r.image :: seen)).cons₂ r

lemma firstOcc_avoid : ∀ (l : List RevisionInfo) (seen : List String),
    ((firstOcc l seen).map (fun r => r.image)).Nodup
    ∧ ∀ r ∈ firstOcc l seen, r.image ∉ seen := by
  intro l
  induction l with
  | nil => intro seen; simp [firstOcc]
  | cons r rest ih =>
    intro seen
    rw [firstOcc]
    by_cases hs : r.image ∈ seen
    · rw [if_pos hs]
      exact ih seen
    · rw [if_neg hs]
      obtain ⟨hnodup, havoid⟩ := ih (r.image :: seen)
      refine ⟨?_, ?_⟩
      · simp only [List.map_cons, List.nodup_cons]
        refine ⟨?_, hnodup⟩
        intro hmem
        rcases List.mem_map.mp hmem with ⟨r', hr', heq⟩
        exact havoid r' hr' (by rw [heq]; exact List.mem_cons_self _ _)
      · intro r' hr'
        rcases List.mem_cons.mp hr' with rfl | hmem
        · exact hs
        · exact fun hcon => havoid r' hmem (List.mem_cons_of_mem _ hcon)

lemma safeImagesLoop_eq (envName nsName : String) (keepN : Nat) :
    ∀ (l : List RevisionInfo) (seen : List String) (acc : List SafeImageInfo),
      safeImagesLoop envName nsName keepN l seen acc
        = acc ++ ((firstOcc l seen).take (keepN - acc.length)).map
            (fun r => ⟨r.image, envName, nsName⟩) := by
  intro l
  induction l with
  | nil => intro seen acc; simp [safeImagesLoop, firstOcc]
  | cons r rest ih =>
    intro seen acc
    rw [safeImagesLoop, firstOcc]
    by_cases hs : r.image ∈ seen
    · rw [if_pos hs, if_pos hs]
      exact ih seen acc
    · rw [if_neg hs, if_neg hs]
      by_cases hlen : acc.length < keepN
      · rw [if_pos hlen, ih]
        have harith : keepN - acc.length = (keepN - (acc.length + 1)) + 1 := by omega
        rw [harith, List.take_succ_cons, List.map_cons]
        simp
      · rw [if_neg hlen, ih]
        have h0 : keepN - acc.length = 0 := by omega
        rw [h0]
        simp

lemma getSafeImagesForWorkload_eq (envName nsName : String) (keepN : Nat)
    (sorted : List RevisionInfo) :
    getSafeImagesForWorkload envName nsName keepN sorted
      = ((firstOcc sorted []).take keepN).map (fun r => ⟨r.image, envName, nsName⟩) := by
  unfold getSafeImagesForWorkload
  rw [safeImagesLoop_eq]
  simp

/-- Claim C9, amended: for any descending-time-sorted permutation of the built
revision list, the extractor emits at most `keepN` records over pairwise
distinct images, obtained from a descending-sorted sublist of the revisions
(first occurrence of each image, most recent first); and when there are no
replica-set revisions, and `keepN ≥ 1` and the workload has at least one
container, the output is non-empty, consists only of current container
images, and every revision carries the workload's own creation time.  (As
stated the claim fails at `keepN = 0` — see the counterexample.) -/
theorem claim_C9_extractor_amended
    (envName nsName : String) (keepN : Nat) (currentImages : List String)
    (creationTime : Int) (rsRevisions : List RevisionInfo)
    (sorted : List RevisionInfo)
    (hperm : sorted.Perm (buildRevisions currentImages creationTime rsRevisions))
    (hsort : List.Pairwise (fun a b : RevisionInfo => b.time ≤ a.time) sorted) :
    (getSafeImagesForWorkload envName nsName keepN sorted).length ≤ keepN
    ∧ ((getSafeImagesForWorkload envName nsName keepN sorted).map
          (fun rec => rec.image)).Nodup
    ∧ (∃ rs : List RevisionInfo, rs.Sublist sorted
        ∧ List.Pairwise (fun a b : RevisionInfo => b.time ≤ a.time) rs
        ∧ getSafeImagesForWorkload envName nsName keepN sorted
            = rs.map (fun r => (⟨r.image, envName, nsName⟩ : SafeImageInfo)))
    ∧ (rsRevisions = [] → 1 ≤ keepN → currentImages ≠ [] →
        getSafeImagesForWorkload envName nsName keepN sorted ≠ []
        ∧ (∀ rec ∈ getSafeImagesForWorkload envName nsName keepN sorted,
            rec.image ∈ currentImages)
        ∧ (∀ r ∈ sorted, r.time = creationTime)) := by
  have hsub : ((firstOcc sorted []).take keepN).Sublist sorted :=
    (List.take_sublist _ _).trans (firstOcc_sublist sorted [])
  rw [getSafeImagesForWorkload_eq]
  refine ⟨?_, ?_, ?_, ?_⟩
  · rw [List.length_map, List.length_take]
    omega
  · have hnodup := (firstOcc_avoid sorted []).1
    have hgoal : (List.map (fun r : RevisionInfo => r.image)
        (List.take keepN (firstOcc sorted []))).Nodup := by
      rw [List.map_take]
      exact List.Nodup.sublist (List.take_sublist _ _) hnodup
    simpa [List.map_map, Function.comp] using hgoal
  · exact ⟨(firstOcc sorted []).take keepN, hsub, hsort.sublist hsub, rfl⟩
  · rintro rfl hkeep hcur
    have hbuild : buildRevisions currentImages creationTime []
        = currentImages.map (fun img => ⟨img, creationTime⟩) := by
      simp [buildRevisions]
    rw [hbuild] at hperm
    have hmem_sorted : ∀ r ∈ sorted, r.image ∈ currentImages ∧ r.time = creationTime := by
      intro r hr
      have : r ∈ currentImages.map (fun img => (⟨img, creationTime⟩ : RevisionInfo)) :=
        hperm.mem_iff.mp hr
      rcases List.mem_map.mp this with ⟨img, himg, heq⟩
      subst heq
      exact ⟨himg, rfl⟩
    refine ⟨?_, ?_, fun r hr => (hmem_sorted r hr).2⟩
    · cases hsorted : sorted with
      | nil =>
        have hlen := hperm.length_eq
        rw [hsorted] at hlen
        simp at hlen
        exact absurd (List.eq_nil_of_length_eq_zero hlen.symm) hcur
      | cons r rest =>
        rw [firstOcc, if_neg (by simp)]
        cases keepN with
        | zero => omega
        | succ n =>
          rw [List.take_succ_cons]
          simp
    · intro rec hrec
      rcases List.mem_map.mp hrec with ⟨r, hr, heq⟩
      have hrs : r ∈ sorted := List.Sublist.mem hr hsub
      rw [← heq]
      exact (hmem_sorted r hrs).1

/-- Counterexample to C9 as stated: with `keepN = 0` the extractor emits
nothing even for a workload with no history, so "at least the current image is
always included" fails. -/
theorem claim_C9_counterexample :
    getSafeImagesForWorkload "e" "n" 0 (buildRevisions ["img"] 5 []) = []
    ∧ (⟨"img", "e", "n"⟩ : SafeImageInfo)
        ∉ getSafeImagesForWorkload "e" "n" 0 (buildRevisions ["img"] 5 []) := by
  refine ⟨by decide, by decide⟩

/-- Witness for C9 (amended) at one revision and `keepN = 2`. -/
theorem claim_C9_extractor_amended_witness :
    (getSafeImagesForWorkload "e" "n" 2 [⟨"img", 5⟩]).length ≤ 2
    ∧ getSafeImagesForWorkload "e" "n" 2 [⟨"img", 5⟩] ≠ [] := by
  have h := claim_C9_extractor_amended "e" "n" 2 ["img"] 5 [] [⟨"img", 5⟩]
    (by decide) (by decide)
  exact ⟨h.1, (h.2.2.2 rfl (by decide) (by decide)).1⟩
